import Mathlib

/-!
Shallow embedding of the two core runtime services of the rampify
mcp-server repository: the URL resolver (file path to logical URL path)
and the TTL cache.  Strings are modelled as `List Char`; JavaScript
timestamps and TTLs are `Nat` (milliseconds resp. seconds); the
JavaScript value domain `T | null` is modelled as `Option β` with
`none` playing the role of `null`.

Every definition is translated from the TypeScript source
(`URLResolver` and `Cache` classes).  The regular expressions of the
resolver are embedded as explicit string functions whose semantics
follow the JavaScript regex engine (leftmost match, lazy and greedy
quantifiers, end anchor, the `i` flag, the dot wildcard excluding
newlines), as documented at each definition.
-/

/-- Boolean test that the first list is a prefix of the second. -/
def isPre : List Char → List Char → Bool
  | [], _ => true
  | _ :: _, [] => false
  | p :: ps, c :: cs => p == c && isPre ps cs

/-- JavaScript `String.prototype.includes`: substring containment. -/
def containsSub (pat : List Char) : List Char → Bool
  | [] => pat.isEmpty
  | l@(_ :: cs) => isPre pat l || containsSub pat cs

/-- Drop an exact leading pattern, or fail. -/
def dropLead : List Char → List Char → Option (List Char)
  | [], s => some s
  | _ :: _, [] => none
  | p :: ps, c :: cs => if p == c then dropLead ps cs else none

/-- Drop an exact trailing pattern, or fail. -/
def dropTail (pat s : List Char) : Option (List Char) :=
  (dropLead pat.reverse s.reverse).map List.reverse

/-- ASCII lower-casing as performed by a case-insensitive JavaScript
regex when comparing a subject character to a literal. -/
def jsLower (c : Char) : Char :=
  if 'A' ≤ c ∧ c ≤ 'Z' then Char.ofNat (c.toNat + 32) else c

/-- Drop a leading pattern comparing case-insensitively; the pattern is
given in lower case, subject characters are lowered before comparison. -/
def dropLeadCI : List Char → List Char → Option (List Char)
  | [], s => some s
  | _ :: _, [] => none
  | p :: ps, c :: cs => if jsLower c == p then dropLeadCI ps cs else none

/-- Drop a trailing pattern case-insensitively. -/
def dropTailCI (pat s : List Char) : Option (List Char) :=
  (dropLeadCI pat.reverse s.reverse).map List.reverse

/-- Indices of every occurrence of `pat` in the list, left to right,
offset by the accumulator.  Used to model the regex engine trying
start positions from the left. -/
def occList (pat : List Char) : List Char → Nat → List Nat
  | [], _ => []
  | l@(_ :: cs), i => (if isPre pat l then [i] else []) ++ occList pat cs (i + 1)

/-- Split a list at the first right bracket: models the regex atom
consisting of one or more non-bracket characters followed by a closing
bracket, which always ends at the first closing bracket. -/
def splitRB : List Char → Option (List Char × List Char)
  | [] => none
  | c :: cs =>
    if c == ']' then some ([], cs)
    else (splitRB cs).map fun p => (c :: p.1, p.2)

/-- Fuelled worker for the global replacement of bracketed segments
`[name]` by `:name` (the first `.replace` of the Next.js, Pages and
Astro resolvers).  The fuel is an upper bound on the list length; each
step consumes at least one character, so fuel equal to the length of
the input never runs out. -/
def replDynF : Nat → List Char → List Char
  | _, [] => []
  | 0, l => l
  | n + 1, '[' :: rest =>
    match splitRB rest with
    | some (inner, after) =>
      if inner.isEmpty then '[' :: replDynF n rest
      else ':' :: (inner ++ replDynF n after)
    | none => '[' :: replDynF n rest
  | n + 1, c :: rest => c :: replDynF n rest

/-- Global replacement of every `[name]` (nonempty `name` without a
closing bracket) by `:name`. -/
def replDyn (l : List Char) : List Char := replDynF l.length l

/-- Fuelled worker for the global replacement of `[...name]` by `*`
(the second `.replace` of the bracket-based resolvers). -/
def replCatchF : Nat → List Char → List Char
  | _, [] => []
  | 0, l => l
  | n + 1, '[' :: '.' :: '.' :: '.' :: rest =>
    match splitRB rest with
    | some (inner, after) =>
      if inner.isEmpty then '[' :: replCatchF n ('.' :: '.' :: '.' :: rest)
      else '*' :: replCatchF n after
    | none => '[' :: replCatchF n ('.' :: '.' :: '.' :: rest)
  | n + 1, c :: rest => c :: replCatchF n rest

/-- Global replacement of every `[...name]` by `*`. -/
def replCatch (l : List Char) : List Char := replCatchF l.length l

/-- Removal of a trailing `/index` segment (the anchored, non-global
third `.replace`). -/
def stripIndexEnd (l : List Char) : List Char :=
  match dropTail "/index".toList l with
  | some l' => l'
  | none => l

/-- JavaScript `path || sl` for a string `path`: the empty string is
falsy and falls back to the alternative. -/
def jsOrSlash (p : List Char) : List Char :=
  if p.isEmpty then "/".toList else p

/-- The shared transformation chain of the Next.js App Router, Pages
Router and Astro resolvers, applied to the captured group: bracket
replacements in source order (single-bracket rule first, then the
catch-all rule), trailing `/index` removal, leading slash, empty
fallback. -/
def bracketTransform (mid : List Char) : List Char :=
  jsOrSlash ('/' :: stripIndexEnd (replCatch (replDyn mid)))

/-- Confidence level of a resolved route. -/
inductive Confidence : Type
  | high
  | medium
  | low
deriving DecidableEq, Repr

/-- The `ResolvedURL` interface of the source. -/
structure ResolvedURL : Type where
  urlPath : List Char
  confidence : Confidence
  reasoning : String
deriving DecidableEq, Repr

/-- Lazy captured group of the framework matchers.  A regex of the form
`marker (.+?) tail-dollar` matches iff the subject ends with the fixed
tail (`body` is the subject with that tail removed) and some occurrence
of the marker ends strictly before the end of `body`, with the captured
middle free of newlines (the dot wildcard does not match line
terminators).  The engine tries occurrences left to right, so the
match, when it exists, uses the first occurrence satisfying both
conditions, and the captured group runs from the end of that occurrence
to the end of `body`. -/
def lazyGroupMatch (marker body s : List Char) : Option (List Char) :=
  ((occList marker s 0).find? fun i =>
      decide (i + marker.length < body.length) &&
        (body.drop (i + marker.length)).all fun c => c != '\n').map
    fun i => body.drop (i + marker.length)

/-- Script extensions of the `(tsx?|jsx?)` alternation. -/
def scriptExts : List (List Char) :=
  ["tsx".toList, "ts".toList, "jsx".toList, "js".toList]

/-- Strip the `.(tsx?|jsx?)` end of the Pages Router and Remix
regexes.  At most one alternative can be a suffix of a given subject,
so the scan order is immaterial. -/
def stripScriptExt (s : List Char) : Option (List Char) :=
  scriptExts.findSome? fun ext => dropTail ('.' :: ext) s

/-- Route file kinds of the App Router regex. -/
def routeKinds : List (List Char) :=
  ["page".toList, "layout".toList, "route".toList]

/-- Strip the `/(page|layout|route).(tsx?|jsx?)` end of the App Router
regex. -/
def stripAppSuffix (s : List Char) : Option (List Char) :=
  routeKinds.findSome? fun kind =>
    scriptExts.findSome? fun ext => dropTail ('/' :: (kind ++ '.' :: ext)) s

/-- Captured group of the App Router regex. -/
def appRouterMatch (s : List Char) : Option (List Char) :=
  (stripAppSuffix s).bind fun body => lazyGroupMatch "/app/".toList body s

/-- Captured group of the Pages Router regex. -/
def pagesRouterMatch (s : List Char) : Option (List Char) :=
  (stripScriptExt s).bind fun body => lazyGroupMatch "/pages/".toList body s

/-- Captured group of the Astro regex. -/
def astroMatch (s : List Char) : Option (List Char) :=
  (dropTail ".astro".toList s).bind fun body =>
    lazyGroupMatch "/src/pages/".toList body s

/-- Captured group of the Remix regex. -/
def remixMatch (s : List Char) : Option (List Char) :=
  (stripScriptExt s).bind fun body => lazyGroupMatch "/routes/".toList body s

/-- `URLResolver.resolveNextJS`: App Router branch first, then Pages
Router branch, each applying the shared bracket transformation chain. -/
def resolveNextJS (s : List Char) : Option ResolvedURL :=
  match appRouterMatch s with
  | some mid => some ⟨bracketTransform mid, .high, "Next.js App Router pattern"⟩
  | none =>
    match pagesRouterMatch s with
    | some mid => some ⟨bracketTransform mid, .high, "Next.js Pages Router pattern"⟩
    | none => none

/-- `URLResolver.resolveAstro`. -/
def resolveAstro (s : List Char) : Option ResolvedURL :=
  (astroMatch s).map fun mid =>
    ⟨bracketTransform mid, .high, "Astro pages pattern"⟩

/-- The transformation chain of the Remix resolver: every dollar sign
becomes a colon, then every dot becomes a slash, then trailing `/index`
removal, leading slash, empty fallback. -/
def remixTransform (mid : List Char) : List Char :=
  jsOrSlash ('/' ::
    stripIndexEnd ((mid.map fun c => if c == '$' then ':' else c).map
      fun c => if c == '.' then '/' else c))

/-- `URLResolver.resolveRemix`. -/
def resolveRemix (s : List Char) : Option ResolvedURL :=
  (remixMatch s).map fun mid =>
    ⟨remixTransform mid, .high, "Remix routes pattern"⟩

/-- Character class `[a-z0-9\-_\/]` of the generic regex under the `i`
flag: letters of either case, digits, hyphen, underscore, slash. -/
def isGenClass (c : Char) : Bool :=
  ('a' ≤ c && c ≤ 'z') || ('A' ≤ c && c ≤ 'Z') ||
    ('0' ≤ c && c ≤ '9') || c == '-' || c == '_' || c == '/'

/-- Extensions of the `(html?|php|md)` alternation, in alternation
order.  For a fixed subject end at most one can match (their final
letters differ), so the order is immaterial. -/
def genericExts : List (List Char) :=
  ["html".toList, "htm".toList, "php".toList, "md".toList]

/-- Strip the case-insensitive `.(html?|php|md)` end of the generic
regex. -/
def stripGenericExt (s : List Char) : Option (List Char) :=
  genericExts.findSome? fun ext => dropTailCI ('.' :: ext) s

/-- Index of the first slash in a list, if any. -/
def firstSlashIdx : List Char → Option Nat
  | [] => none
  | c :: cs => if c == '/' then some 0 else (firstSlashIdx cs).map (· + 1)

/-- Captured group of the generic regex
`\/([a-z0-9\-_\/]+)\.(html?|php|md)$` with the `i` flag.  After the
anchored extension is removed, a valid start is a slash all of whose
following characters up to the removed dot lie in the class; since the
slash itself is in the class, the valid starts are exactly the slashes
inside the maximal class-character suffix of the remaining body, and
the leftmost one wins.  The capture must be nonempty. -/
def genericMatch (s : List Char) : Option (List Char) :=
  (stripGenericExt s).bind fun body =>
    match firstSlashIdx ((body.reverse.takeWhile isGenClass).reverse) with
    | some p =>
      if p + 1 < ((body.reverse.takeWhile isGenClass).reverse).length then
        some (((body.reverse.takeWhile isGenClass).reverse).drop (p + 1))
      else none
    | none => none

/-- `URLResolver.resolveGeneric`. -/
def resolveGeneric (s : List Char) : Option ResolvedURL :=
  (genericMatch s).map fun cap =>
    ⟨'/' :: cap, .low, "Generic path extraction"⟩

/-- `URLResolver.detectFramework`. -/
def detectFramework (s : List Char) : String :=
  if containsSub "/app/".toList s || containsSub "/pages/".toList s then "nextjs"
  else if containsSub "/src/pages/".toList s then "astro"
  else if containsSub "/routes/".toList s then "remix"
  else "generic"

/-- `URLResolver.resolve`: the `framework || detectFramework` fallback
(the empty string is falsy) followed by the switch whose default case
is the generic resolver. -/
def resolve (s : List Char) (framework : Option String) : Option ResolvedURL :=
  let fw :=
    match framework with
    | some f => if f = "" then detectFramework s else f
    | none => detectFramework s
  if fw = "nextjs" then resolveNextJS s
  else if fw = "astro" then resolveAstro s
  else if fw = "remix" then resolveRemix s
  else resolveGeneric s

example : resolveNextJS "/app/docs/[...path]/page.tsx".toList =
    some ⟨"/docs/:...path".toList, .high, "Next.js App Router pattern"⟩ := by decide

example : resolveNextJS "/app/blog/[slug]/page.tsx".toList =
    some ⟨"/blog/:slug".toList, .high, "Next.js App Router pattern"⟩ := by decide

example : resolve "/src/pages/blog/[slug].astro".toList none = none := by decide

example : resolve "/src/pages/blog/[slug].astro".toList (some "astro") =
    some ⟨"/blog/:slug".toList, .high, "Astro pages pattern"⟩ := by decide

example : resolveGeneric "/static/contact-us.html".toList =
    some ⟨"/static/contact-us".toList, .low, "Generic path extraction"⟩ := by decide

example : resolveGeneric "/About.html".toList =
    some ⟨"/About".toList, .low, "Generic path extraction"⟩ := by decide

example : resolve "/weird/file.unknown".toList none = none := by decide

/-- A stored cache entry: an opaque value and an absolute expiry in
milliseconds.  The JavaScript payload type `T`, which may itself be
`null`, is modelled as `Option β` with `none` for `null`. -/
structure CacheEntry (β : Type) : Type where
  value : Option β
  expiresAt : Nat
deriving DecidableEq, Repr

/-- The cache state: the backing `Map` as an insertion-ordered
association list with unique keys, plus the default TTL in seconds. -/
structure Cache (β : Type) : Type where
  store : List (String × CacheEntry β)
  defaultTTL : Nat
deriving DecidableEq, Repr

/-- JavaScript `Map.prototype.get`. -/
def mapGet (k : String) : List (String × CacheEntry β) → Option (CacheEntry β)
  | [] => none
  | kv :: rest => if kv.1 == k then some kv.2 else mapGet k rest

/-- JavaScript `Map.prototype.set`: update the existing entry in place
preserving insertion order, else append. -/
def mapSet (k : String) (e : CacheEntry β) :
    List (String × CacheEntry β) → List (String × CacheEntry β)
  | [] => [(k, e)]
  | kv :: rest => if kv.1 == k then (k, e) :: rest else kv :: mapSet k e rest

/-- JavaScript `Map.prototype.delete` (key removal part). -/
def mapDelete (k : String) (st : List (String × CacheEntry β)) :
    List (String × CacheEntry β) :=
  st.filter fun kv => kv.1 != k

/-- The parts accepted by `Cache.generateKey`: strings, numbers, or
`undefined`. -/
inductive KeyPart : Type
  | str (s : String)
  | num (n : Int)
  | undef
deriving DecidableEq, Repr

/-- JavaScript truthiness of a key part, as tested by
`parts.filter(Boolean)`: `undefined`, the empty string and the number
zero are falsy. -/
def KeyPart.truthy : KeyPart → Bool
  | .str s => s != ""
  | .num n => n != 0
  | .undef => false

/-- Stringification of a key part as performed by `Array.prototype.join`. -/
def KeyPart.render : KeyPart → String
  | .str s => s
  | .num n => toString n
  | .undef => "undefined"

/-- `Cache.generateKey`: `parts.filter(Boolean).join(':')`. -/
def Cache.generateKey (parts : List KeyPart) : String :=
  String.intercalate ":" ((parts.filter KeyPart.truthy).map KeyPart.render)

/-- `Cache.get` with the current time `now` made explicit: a missing
key is a miss; an entry with `now > expiresAt` is deleted and reported
as a miss; otherwise the stored value is returned and the store is
untouched.  The returned `Option β` conflates a stored `null` with a
miss, exactly as the JavaScript return type `T | null` does. -/
def Cache.get (c : Cache β) (now : Nat) (k : String) : Option β × Cache β :=
  match mapGet k c.store with
  | none => (none, c)
  | some e =>
    if now > e.expiresAt then (none, { c with store := mapDelete k c.store })
    else (e.value, c)

/-- Effective TTL in seconds: the source computes
`ttl || this.defaultTTL`, so an absent `ttl` and an explicit `ttl` of
zero both fall back to the default. -/
def effTTL (ttl : Option Nat) (d : Nat) : Nat :=
  match ttl with
  | some t => if t = 0 then d else t
  | none => d

/-- `Cache.set`: stores the value with
`expiresAt = now + ttlSeconds * 1000`, unconditionally overwriting any
existing entry for the key. -/
def Cache.set (c : Cache β) (now : Nat) (k : String) (v : Option β)
    (ttl : Option Nat) : Cache β :=
  { c with store := mapSet k ⟨v, now + effTTL ttl c.defaultTTL * 1000⟩ c.store }

/-- `Cache.has`: same expiry check and lazy eviction as `get`, without
returning the value. -/
def Cache.has (c : Cache β) (now : Nat) (k : String) : Bool × Cache β :=
  match mapGet k c.store with
  | none => (false, c)
  | some e =>
    if now > e.expiresAt then (false, { c with store := mapDelete k c.store })
    else (true, c)

/-- Worker of `Cache.deletePattern`: iterate over the snapshot of the
keys, deleting every key the regex test accepts and counting the
deletions.  The `RegExp.prototype.test` call on the full key string is
abstracted as the predicate `test`. -/
def dpGo (test : String → Bool) :
    List String → List (String × CacheEntry β) → Nat × List (String × CacheEntry β)
  | [], st => (0, st)
  | k :: ks, st =>
    if test k then
      let r := dpGo test ks (mapDelete k st)
      (r.1 + 1, r.2)
    else dpGo test ks st

/-- `Cache.deletePattern`: removes every key accepted by the regex
test and returns the number removed.  Iterating the live `Map` key
iterator while deleting only the key under the cursor is equivalent to
iterating a snapshot of the keys. -/
def Cache.deletePattern (c : Cache β) (test : String → Bool) : Nat × Cache β :=
  let r := dpGo test (c.store.map Prod.fst) c.store
  (r.1, { c with store := r.2 })

/-- `Cache.getOrSet`: a synchronous rendering of one complete call.
The producer is modelled by its outcome, `Except ε (Option β)`; a
cached non-null value is returned as is, otherwise the producer
outcome either propagates as an error (leaving the store as the `get`
call left it) or is stored and returned. -/
def Cache.getOrSet (c : Cache β) (now : Nat) (k : String)
    (factory : Except ε (Option β)) (ttl : Option Nat) :
    Except ε (Option β) × Cache β :=
  match c.get now k with
  | (some v, c₁) => (Except.ok (some v), c₁)
  | (none, c₁) =>
    match factory with
    | Except.error e => (Except.error e, c₁)
    | Except.ok v => (Except.ok v, c₁.set now k v ttl)

/-- Phase of one caller of `getOrSet` in the event-loop interleaving
model: not yet scheduled, suspended at `await factory()`, or finished
with a result. -/
inductive SFPhase (β : Type) : Type
  | start
  | awaiting
  | done (r : Option β)
deriving DecidableEq, Repr

/-- Shared state of several concurrent callers of `getOrSet` for the
same key: the shared cache, each caller phase, and the number of
producer invocations so far. -/
structure SFState (β : Type) : Type where
  cache : Cache β
  phases : List (SFPhase β)
  produced : Nat
deriving DecidableEq, Repr

/-- One event-loop step of caller `i` of `getOrSet(k, factory, ttl)`.
A caller at `start` runs the synchronous `this.get(key)`: on a hit it
returns the cached value, on a miss it invokes the producer and
suspends at the `await`.  A suspended caller resumes when the producer
settles with `fval`, runs `this.set(key, value, ttl)` and returns the
value.  This is the source of `getOrSet` cut at its single `await`
point, the only place the JavaScript event loop can interleave. -/
def sfStep (now : Nat) (k : String) (fval : Option β) (ttl : Option Nat)
    (s : SFState β) (i : Nat) : SFState β :=
  match s.phases.get? i with
  | some SFPhase.start =>
    match s.cache.get now k with
    | (some v, c') =>
      { s with cache := c', phases := s.phases.set i (SFPhase.done (some v)) }
    | (none, c') =>
      { s with cache := c', phases := s.phases.set i SFPhase.awaiting,
               produced := s.produced + 1 }
  | some SFPhase.awaiting =>
    { s with cache := s.cache.set now k fval ttl,
             phases := s.phases.set i (SFPhase.done fval) }
  | _ => s

/-- Run a schedule of event-loop steps. -/
def sfRun (now : Nat) (k : String) (fval : Option β) (ttl : Option Nat)
    (sched : List Nat) (s₀ : SFState β) : SFState β :=
  sched.foldl (sfStep now k fval ttl) s₀

example :
    (sfRun 0 "k" (some 42) none [0, 1, 0, 1]
      (⟨⟨[], 3600⟩, [SFPhase.start, SFPhase.start], 0⟩ : SFState Nat)).produced = 2 := by
  decide

theorem mapGet_mapSet_self (k : String) (e : CacheEntry β)
    (st : List (String × CacheEntry β)) : mapGet k (mapSet k e st) = some e := by
  induction st with
  | nil => simp [mapSet, mapGet]
  | cons kv rest ih =>
    by_cases h : kv.1 = k
    · simp [mapSet, mapGet, h]
    · simp [mapSet, mapGet, h, ih]

theorem mapGet_mapSet_other (k k' : String) (e : CacheEntry β)
    (st : List (String × CacheEntry β)) (h : k' ≠ k) :
    mapGet k' (mapSet k e st) = mapGet k' st := by
  have hkk : ¬(k = k') := fun hh => h hh.symm
  induction st with
  | nil => simp [mapSet, mapGet, hkk]
  | cons kv rest ih =>
    by_cases hk : kv.1 = k
    · simp [mapSet, mapGet, hk, hkk]
    · simp [mapSet, mapGet, hk, ih]

theorem mapGet_mapDelete_self (k : String) (st : List (String × CacheEntry β)) :
    mapGet k (mapDelete k st) = none := by
  induction st with
  | nil => simp [mapDelete, mapGet]
  | cons kv rest ih =>
    by_cases h : kv.1 = k
    · simpa [mapDelete, h] using ih
    · simpa [mapDelete, mapGet, h] using ih

theorem mapDelete_of_not_mem (k : String) (st : List (String × CacheEntry β)) :
    k ∉ st.map Prod.fst → mapDelete k st = st := by
  induction st with
  | nil => intro _; rfl
  | cons kv rest ih =>
    intro h
    simp only [List.map_cons, List.mem_cons, not_or] at h
    have hne : ¬(kv.1 = k) := fun hh => h.1 hh.symm
    have hrest := ih h.2
    simp only [mapDelete] at hrest
    simp [mapDelete, List.filter_cons, hne, hrest]

theorem mapGet_filter_of_not (test : String → Bool) (k : String)
    (st : List (String × CacheEntry β)) (h : test k = false) :
    mapGet k (st.filter fun kv => !test kv.1) = mapGet k st := by
  induction st with
  | nil => rfl
  | cons kv rest ih =>
    by_cases hk : kv.1 = k
    · simp [List.filter_cons, mapGet, hk, h]
    · by_cases ht : test kv.1 <;> simp [List.filter_cons, mapGet, hk, ht, ih]

theorem mapGet_filter_of_test (test : String → Bool) (k : String)
    (st : List (String × CacheEntry β)) (h : test k = true) :
    mapGet k (st.filter fun kv => !test kv.1) = none := by
  induction st with
  | nil => rfl
  | cons kv rest ih =>
    by_cases hk : kv.1 = k
    · simp [List.filter_cons, hk, h, ih]
    · by_cases ht : test kv.1 <;> simp [List.filter_cons, mapGet, hk, ht, ih]

theorem dpGo_cons_of_not_mem (test : String → Bool) (k : String) (e : CacheEntry β)
    (ks : List String) (st : List (String × CacheEntry β)) :
    k ∉ ks →
      dpGo test ks ((k, e) :: st) =
        ((dpGo test ks st).1, (k, e) :: (dpGo test ks st).2) := by
  induction ks generalizing st with
  | nil => intro _; simp [dpGo]
  | cons k' ks' ih =>
    intro h
    simp only [List.mem_cons, not_or] at h
    have hne : ¬(k = k') := h.1
    by_cases ht : test k'
    · have hdel : mapDelete k' ((k, e) :: st) = (k, e) :: mapDelete k' st := by
        simp [mapDelete, List.filter_cons, hne]
      simp [dpGo, ht, hdel, ih (mapDelete k' st) h.2]
    · simp [dpGo, ht, ih st h.2]

theorem dpGo_spec (test : String → Bool) (st : List (String × CacheEntry β)) :
    (st.map Prod.fst).Nodup →
      dpGo test (st.map Prod.fst) st =
        ((st.filter fun kv => test kv.1).length, st.filter fun kv => !test kv.1) := by
  induction st with
  | nil => intro _; simp [dpGo]
  | cons kv rest ih =>
    intro h
    obtain ⟨k, e⟩ := kv
    simp only [List.map_cons, List.nodup_cons] at h
    by_cases ht : test k
    · have hdel : mapDelete k ((k, e) :: rest) = rest := by
        simp only [mapDelete, List.filter_cons]
        simp only [bne_self_eq_false, cond_false]
        simpa [mapDelete] using mapDelete_of_not_mem k rest h.1
      simp [dpGo, ht, hdel, ih h.2, List.filter_cons]
    · simp [dpGo, ht, dpGo_cons_of_not_mem test k e _ rest h.1, ih h.2,
        List.filter_cons]

/-- C2: with the regex test abstracted as a predicate on the full key
string, `deletePattern` removes exactly the matching keys (each such
key is afterwards absent), leaves the entry of every non-matching key
unchanged (the surviving store is the verbatim sublist of non-matching
entries), and returns the number of keys removed. -/
theorem c2_deletePattern_spec (β : Type) (test : String → Bool) (c : Cache β)
    (h : (c.store.map Prod.fst).Nodup) :
    (c.deletePattern test).1 = (c.store.filter fun kv => test kv.1).length ∧
    (c.deletePattern test).2.store = (c.store.filter fun kv => !test kv.1) ∧
    (∀ k, test k = true → mapGet k (c.deletePattern test).2.store = none) ∧
    (∀ k, test k = false →
      mapGet k (c.deletePattern test).2.store = mapGet k c.store) := by
  have hgo := dpGo_spec test c.store h
  refine ⟨?_, ?_, ?_, ?_⟩
  · simp [Cache.deletePattern, hgo]
  · simp [Cache.deletePattern, hgo]
  · intro k hk
    simp [Cache.deletePattern, hgo, mapGet_filter_of_test test k c.store hk]
  · intro k hk
    simp [Cache.deletePattern, hgo, mapGet_filter_of_not test k c.store hk]

theorem c2_deletePattern_spec_inst :
    (Cache.deletePattern (β := Nat)
        ⟨[("session:1", ⟨some 1, 10⟩), ("user:2", ⟨some 2, 10⟩)], 60⟩
        (fun s => isPre "session:".toList s.toList)).1 = 1 ∧
    (Cache.deletePattern (β := Nat)
        ⟨[("session:1", ⟨some 1, 10⟩), ("user:2", ⟨some 2, 10⟩)], 60⟩
        (fun s => isPre "session:".toList s.toList)).2.store =
      [("user:2", ⟨some 2, 10⟩)] := by
  have h := c2_deletePattern_spec Nat (fun s => isPre "session:".toList s.toList)
    ⟨[("session:1", ⟨some 1, 10⟩), ("user:2", ⟨some 2, 10⟩)], 60⟩ (by decide)
  refine ⟨?_, ?_⟩
  · rw [h.1]; decide
  · rw [h.2.1]; decide

/-- C4, refuted as stated: the source computes
`ttl || this.defaultTTL`, so an explicitly supplied TTL of zero is
falsy and falls back to the default.  With `defaultTTL = 3600` and
`now = 1000`, `set(k, v, 0)` stores `expiresAt = 1000 + 3600 * 1000`,
not `1000`. -/
theorem c4_ttlZero_counterexample :
    mapGet "k" ((Cache.set (β := Nat) ⟨[], 3600⟩ 1000 "k" (some 5) (some 0)).store) =
      some ⟨some 5, 1000 + 3600 * 1000⟩ ∧ (1000 + 3600 * 1000 : Nat) ≠ 1000 := by
  decide

/-- C4 amended: `set(key, value, ttlSeconds)` stores an entry with
`expiresAt = now + effectiveTTL * 1000` where the effective TTL is
`ttlSeconds` when supplied and nonzero and `defaultTTL` otherwise
(zero is falsy under the `||` fallback), and it unconditionally
overwrites any existing entry for that key while leaving every other
key unchanged (last-write-wins). -/
theorem c4_set_amended (β : Type) (c : Cache β) (now : Nat) (k : String)
    (v : Option β) (ttl : Option Nat) :
    mapGet k (c.set now k v ttl).store =
      some ⟨v, now + effTTL ttl c.defaultTTL * 1000⟩ ∧
    ∀ k', k' ≠ k → mapGet k' (c.set now k v ttl).store = mapGet k' c.store := by
  constructor
  · simpa [Cache.set] using
      mapGet_mapSet_self k ⟨v, now + effTTL ttl c.defaultTTL * 1000⟩ c.store
  · intro k' h
    simpa [Cache.set] using
      mapGet_mapSet_other k k' ⟨v, now + effTTL ttl c.defaultTTL * 1000⟩ c.store h

theorem c4_set_amended_inst :
    mapGet "b" ((Cache.set (β := Nat) ⟨[("a", ⟨some 1, 5⟩)], 60⟩ 0 "b" (some 2)
      (some 7)).store) = some ⟨some 2, 7000⟩ ∧
    mapGet "a" ((Cache.set (β := Nat) ⟨[("a", ⟨some 1, 5⟩)], 60⟩ 0 "b" (some 2)
      (some 7)).store) = some ⟨some 1, 5⟩ := by
  have h := c4_set_amended Nat ⟨[("a", ⟨some 1, 5⟩)], 60⟩ 0 "b" (some 2) (some 7)
  constructor
  · rw [h.1]; decide
  · rw [h.2 "a" (by decide)]; decide

/-- C5, refuted as stated: `parts.filter(Boolean)` drops every falsy
part, and the number `0` is falsy, so a numeric part `0` is not kept:
`generateKey("a", 0, "b")` yields `"a:b"`, not `"a:0:b"`. -/
theorem c5_generateKey_counterexample :
    Cache.generateKey [KeyPart.str "a", KeyPart.num 0, KeyPart.str "b"] = "a:b" ∧
    ("a:b" : String) ≠ "a:0:b" := by
  constructor
  · rfl
  · decide

/-- C5 amended: `generateKey` joins with `:` exactly the truthy parts
in their given order, where truthy excludes absent parts, empty
strings and the number zero (JavaScript falsiness); inserting a falsy
part anywhere leaves the key unchanged, and on all-truthy parts the
key is the plain colon-join.  The function is pure and deterministic
by construction. -/
theorem c5_generateKey_amended :
    (∀ (xs ys : List KeyPart) (p : KeyPart), p.truthy = false →
      Cache.generateKey (xs ++ p :: ys) = Cache.generateKey (xs ++ ys)) ∧
    (∀ parts : List KeyPart, (∀ p ∈ parts, p.truthy = true) →
      Cache.generateKey parts = String.intercalate ":" (parts.map KeyPart.render)) := by
  constructor
  · intro xs ys p hp
    simp [Cache.generateKey, List.filter_append, List.filter_cons, hp]
  · intro parts h
    simp [Cache.generateKey, List.filter_eq_self.mpr h]

theorem c5_generateKey_amended_inst :
    Cache.generateKey [KeyPart.str "a", KeyPart.num 0, KeyPart.str "b"] =
      Cache.generateKey [KeyPart.str "a", KeyPart.str "b"] ∧
    Cache.generateKey [KeyPart.str "x", KeyPart.num 3] = "x:3" := by
  constructor
  · exact c5_generateKey_amended.1 [KeyPart.str "a"] [KeyPart.str "b"]
      (KeyPart.num 0) (by decide)
  · rw [c5_generateKey_amended.2 [KeyPart.str "x", KeyPart.num 3] (by decide)]
    rfl

/-- C8: after `set(k, v, ttl)` at time `now₀`, a `get(k)` at any time
up to the stored expiry returns the stored value and leaves the store
untouched; at any later time `get(k)` reports a miss and evicts the
entry, and on the evicted state `has(k)` returns false at every time. -/
theorem c8_ttl_roundtrip (β : Type) (c : Cache β) (now₀ now₁ : Nat) (k : String)
    (v : Option β) (ttl : Option Nat) :
    (now₁ ≤ now₀ + effTTL ttl c.defaultTTL * 1000 →
      (c.set now₀ k v ttl).get now₁ k = (v, c.set now₀ k v ttl)) ∧
    (now₀ + effTTL ttl c.defaultTTL * 1000 < now₁ →
      ((c.set now₀ k v ttl).get now₁ k).1 = none ∧
      mapGet k ((c.set now₀ k v ttl).get now₁ k).2.store = none ∧
      ∀ now₂, ((c.set now₀ k v ttl).get now₁ k).2.has now₂ k =
        (false, ((c.set now₀ k v ttl).get now₁ k).2)) := by
  have hself : mapGet k (c.set now₀ k v ttl).store =
      some ⟨v, now₀ + effTTL ttl c.defaultTTL * 1000⟩ := by
    simpa [Cache.set] using
      mapGet_mapSet_self k ⟨v, now₀ + effTTL ttl c.defaultTTL * 1000⟩ c.store
  constructor
  · intro hle
    simp [Cache.get, hself, Nat.not_lt.mpr hle]
  · intro hlt
    have hget : (c.set now₀ k v ttl).get now₁ k =
        (none, { c.set now₀ k v ttl with
                  store := mapDelete k (c.set now₀ k v ttl).store }) := by
      simp [Cache.get, hself, hlt]
    refine ⟨by rw [hget], ?_, ?_⟩
    · rw [hget]
      exact mapGet_mapDelete_self k _
    · intro now₂
      rw [hget]
      simp [Cache.has, mapGet_mapDelete_self]

theorem c8_ttl_roundtrip_inst :
    (Cache.set (β := Nat) ⟨[], 10⟩ 0 "k" (some 7) (some 10)).get 500 "k" =
      (some 7, Cache.set (β := Nat) ⟨[], 10⟩ 0 "k" (some 7) (some 10)) ∧
    ((Cache.set (β := Nat) ⟨[], 10⟩ 0 "k" (some 7) (some 10)).get 20000 "k").1 =
      none ∧
    ((Cache.set (β := Nat) ⟨[], 10⟩ 0 "k" (some 7)
        (some 10)).get 20000 "k").2.has 20001 "k" =
      (false, ((Cache.set (β := Nat) ⟨[], 10⟩ 0 "k" (some 7)
        (some 10)).get 20000 "k").2) := by
  have h := c8_ttl_roundtrip Nat ⟨[], 10⟩ 0 500 "k" (some 7) (some 10)
  have h' := c8_ttl_roundtrip Nat ⟨[], 10⟩ 0 20000 "k" (some 7) (some 10)
  exact ⟨h.1 (by decide), (h'.2 (by decide)).1, (h'.2 (by decide)).2.2 20001⟩

/-- C9: for a key absent from the cache, a `getOrSet` whose producer
fails propagates the failure and leaves the cache unchanged, so the
key is still absent; a later `getOrSet` for the same key with a
succeeding producer returns the produced value and stores it. -/
theorem c9_producer_failure (β ε : Type) (c : Cache β) (now₁ now₂ : Nat)
    (k : String) (err : ε) (v : Option β) (ttl₁ ttl₂ : Option Nat)
    (h : mapGet k c.store = none) :
    Cache.getOrSet c now₁ k (Except.error err) ttl₁ = (Except.error err, c) ∧
    Cache.getOrSet (ε := ε) c now₂ k (Except.ok v) ttl₂ =
      (Except.ok v, c.set now₂ k v ttl₂) ∧
    mapGet k (Cache.getOrSet (ε := ε) c now₂ k (Except.ok v) ttl₂).2.store =
      some ⟨v, now₂ + effTTL ttl₂ c.defaultTTL * 1000⟩ := by
  have hg : ∀ n, c.get n k = (none, c) := fun n => by simp [Cache.get, h]
  refine ⟨?_, ?_, ?_⟩
  · simp [Cache.getOrSet, hg]
  · simp [Cache.getOrSet, hg]
  · simp only [Cache.getOrSet, hg]
    simpa [Cache.set] using
      mapGet_mapSet_self k ⟨v, now₂ + effTTL ttl₂ c.defaultTTL * 1000⟩ c.store

theorem c9_producer_failure_inst :
    Cache.getOrSet (β := Nat) (ε := String) ⟨[], 60⟩ 5 "k"
      (Except.error "boom") none = (Except.error "boom", ⟨[], 60⟩) ∧
    Cache.getOrSet (β := Nat) (ε := String) ⟨[], 60⟩ 9 "k"
      (Except.ok (some 3)) none =
      (Except.ok (some 3), Cache.set ⟨[], 60⟩ 9 "k" (some 3) none) := by
  have h := c9_producer_failure Nat String ⟨[], 60⟩ 5 9 "k" "boom" (some 3)
    none none (by decide)
  exact ⟨h.1, h.2.1⟩

/-- C10: a stored, unexpired entry whose value is `null` makes `get`
return `null`, the very same observable outcome as an absent key, and
`getOrSet` then treats the lookup as a miss: it uses the producer
outcome and overwrites the entry, so memoization is never effective
for a cached `null`. -/
theorem c10_null_value (β ε : Type) (c : Cache β) (now expiry : Nat) (k : String)
    (v : Option β) (ttl : Option Nat)
    (hE : mapGet k c.store = some ⟨none, expiry⟩) (hnow : now ≤ expiry) :
    c.get now k = (none, c) ∧
    Cache.getOrSet (ε := ε) c now k (Except.ok v) ttl =
      (Except.ok v, c.set now k v ttl) := by
  have hg : c.get now k = (none, c) := by
    simp [Cache.get, hE, Nat.not_lt.mpr hnow]
  exact ⟨hg, by simp [Cache.getOrSet, hg]⟩

theorem c10_null_value_inst :
    Cache.get (β := Nat) ⟨[("k", ⟨none, 100⟩)], 60⟩ 50 "k" =
      (none, ⟨[("k", ⟨none, 100⟩)], 60⟩) ∧
    Cache.getOrSet (β := Nat) (ε := String) ⟨[("k", ⟨none, 100⟩)], 60⟩ 50 "k"
      (Except.ok (some 9)) none =
      (Except.ok (some 9), Cache.set ⟨[("k", ⟨none, 100⟩)], 60⟩ 50 "k" (some 9) none) := by
  exact c10_null_value Nat String ⟨[("k", ⟨none, 100⟩)], 60⟩ 50 100 "k" (some 9)
    none (by decide) (by decide)

/-- C3, refuted as stated: under the JavaScript event loop, two
concurrent `getOrSet` callers for the same absent key that both run
their synchronous `get` before either producer settles (schedule
caller 0 checks, caller 1 checks, caller 0 resumes, caller 1 resumes)
invoke the producer twice, not exactly once: the source performs
check-then-compute-then-store per caller with no shared in-flight
marker. -/
theorem c3_singleFlight_eval :
    (sfRun 0 "k" (some 42) none [0, 1, 0, 1]
        (⟨⟨[], 3600⟩, [SFPhase.start, SFPhase.start], 0⟩ : SFState Nat)).produced = 2 ∧
    (sfRun 0 "k" (some 42) none [0, 1, 0, 1]
        (⟨⟨[], 3600⟩, [SFPhase.start, SFPhase.start], 0⟩ : SFState Nat)).phases =
      [SFPhase.done (some 42), SFPhase.done (some 42)] ∧
    (2 : Nat) ≠ 1 := by
  decide

/-- C1, refuted as stated: the Next.js resolver applies the
single-bracket rule before the catch-all rule (source order of the two
`.replace` calls), so the single-bracket rule consumes `[...path]`
first and the catch-all substitution never fires:
`resolve('/app/docs/[...path]/page.tsx')` yields urlPath
`/docs/:...path`, not `/docs/*`. -/
theorem c1_catchAll_eval :
    resolveNextJS "/app/docs/[...path]/page.tsx".toList =
      some ⟨"/docs/:...path".toList, Confidence.high, "Next.js App Router pattern"⟩ ∧
    "/docs/:...path".toList ≠ "/docs/*".toList := by
  decide

theorem isPre_iff (p s : List Char) : isPre p s = true ↔ p <+: s := by
  induction p generalizing s with
  | nil => simp [isPre, List.nil_prefix]
  | cons a ps ih =>
    cases s with
    | nil => simp [isPre]
    | cons c cs => simp [isPre, List.cons_prefix_cons, ih]

theorem containsSub_iff (p s : List Char) : containsSub p s = true ↔ p <:+: s := by
  induction s with
  | nil => simp [containsSub, List.isEmpty_iff, List.infix_nil]
  | cons c cs ih => simp [containsSub, List.infix_cons_iff, isPre_iff, ih]

/-- C6, refuted as stated: with no framework supplied, the path
`/src/pages/blog/[slug].astro` is not dispatched to the Astro matcher
and does not produce a high-confidence route; `resolve` returns
absent, because the substring check for `/pages/` fires first and the
Next.js matcher rejects the `.astro` extension. -/
theorem c6_astroDetect_counterexample :
    resolve "/src/pages/blog/[slug].astro".toList none = none := by
  decide

/-- C6 amended: the inference checks `/app/` or `/pages/` first, and
every path containing `/src/pages/` also contains `/pages/`, so every
such path is detected as `nextjs` and dispatched to the Next.js
matcher, never the Astro matcher; the Astro matcher is reached only by
supplying the framework `astro` explicitly, and then
`/src/pages/blog/[slug].astro` resolves to `/blog/:slug` with high
confidence. -/
theorem c6_detect_amended :
    (∀ s : List Char, containsSub "/src/pages/".toList s = true →
      detectFramework s = "nextjs" ∧ resolve s none = resolveNextJS s) ∧
    resolve "/src/pages/blog/[slug].astro".toList (some "astro") =
      some ⟨"/blog/:slug".toList, Confidence.high, "Astro pages pattern"⟩ := by
  constructor
  · intro s h
    have hsp : ("/src/pages/".toList : List Char) <:+: s := (containsSub_iff _ s).mp h
    have hsub : ("/pages/".toList : List Char) <:+: "/src/pages/".toList := by decide
    have hp : containsSub "/pages/".toList s = true :=
      (containsSub_iff _ s).mpr (hsub.trans hsp)
    have hd : detectFramework s = "nextjs" := by
      unfold detectFramework
      rw [hp]
      simp
    exact ⟨hd, by simp [resolve, hd]⟩
  · decide

theorem dropLeadCI_append (a r : List Char) :
    dropLeadCI (a.map jsLower) (a ++ r) = some r := by
  induction a with
  | nil => rfl
  | cons x a' ih => simp [dropLeadCI, ih]

theorem map_jsLower_two {l : List Char} {a b : Char} (h : l.map jsLower = [a, b]) :
    ∃ x y, l = [x, y] ∧ jsLower x = a ∧ jsLower y = b := by
  cases l with
  | nil => simp at h
  | cons x t =>
    cases t with
    | nil => simp at h
    | cons y t2 =>
      cases t2 with
      | nil =>
        simp only [List.map_cons, List.map_nil, List.cons.injEq, and_true] at h
        exact ⟨x, y, rfl, h.1, h.2⟩
      | cons z t3 => simp at h

theorem map_jsLower_three {l : List Char} {a b d : Char}
    (h : l.map jsLower = [a, b, d]) :
    ∃ x y z, l = [x, y, z] ∧ jsLower x = a ∧ jsLower y = b ∧ jsLower z = d := by
  cases l with
  | nil => simp at h
  | cons x t =>
    have h1 : jsLower x = a ∧ t.map jsLower = [b, d] := by
      simpa using h
    obtain ⟨y, z, rfl, hy, hz⟩ := map_jsLower_two h1.2
    exact ⟨x, y, z, rfl, h1.1, hy, hz⟩

theorem map_jsLower_four {l : List Char} {a b d e : Char}
    (h : l.map jsLower = [a, b, d, e]) :
    ∃ x y z w, l = [x, y, z, w] ∧
      jsLower x = a ∧ jsLower y = b ∧ jsLower z = d ∧ jsLower w = e := by
  cases l with
  | nil => simp at h
  | cons x t =>
    have h1 : jsLower x = a ∧ t.map jsLower = [b, d, e] := by
      simpa using h
    obtain ⟨y, z, w, rfl, hy, hz, hw⟩ := map_jsLower_three h1.2
    exact ⟨x, y, z, w, rfl, h1.1, hy, hz, hw⟩

theorem takeWhile_append_of_all (p : Char → Bool) (l₁ l₂ : List Char)
    (h : ∀ a ∈ l₁, p a = true) :
    (l₁ ++ l₂).takeWhile p = l₁ ++ l₂.takeWhile p := by
  induction l₁ with
  | nil => rfl
  | cons a t ih =>
    have ha : p a = true := h a (List.mem_cons_self a t)
    simp only [List.cons_append, List.takeWhile_cons, ha]
    simp [ih fun b hb => h b (List.mem_cons_of_mem a hb)]

theorem stripGenericExt_append (A ext : List Char)
    (h : ext.map jsLower ∈ genericExts) :
    stripGenericExt (A ++ '.' :: ext) = some A := by
  have hdot : jsLower '.' = '.' := by decide
  simp only [genericExts, List.mem_cons, List.not_mem_nil, or_false] at h
  rcases h with h | h | h | h
  · obtain ⟨x1, x2, x3, x4, rfl, h1, h2, h3, h4⟩ := map_jsLower_four h
    have hs : dropTailCI (['.', 'h', 't', 'm', 'l'] : List Char) (A ++ '.' :: [x1, x2, x3, x4]) =
        some A := by
      simp only [dropTailCI]
      rw [show (A ++ '.' :: [x1, x2, x3, x4]).reverse =
        [x4, x3, x2, x1, '.'] ++ A.reverse from by simp]
      rw [show (['.', 'h', 't', 'm', 'l'] : List Char).reverse = ['l', 'm', 't', 'h', '.'] from by
        decide]
      rw [show (['l', 'm', 't', 'h', '.'] : List Char) =
        ([x4, x3, x2, x1, '.'] : List Char).map jsLower from by
          simp [h1, h2, h3, h4, hdot]]
      rw [dropLeadCI_append]
      simp
    simp [stripGenericExt, genericExts, List.findSome?_cons, hs]
  · obtain ⟨x1, x2, x3, rfl, h1, h2, h3⟩ := map_jsLower_three h
    have hf : dropTailCI (['.', 'h', 't', 'm', 'l'] : List Char) (A ++ '.' :: [x1, x2, x3]) =
        none := by
      simp only [dropTailCI]
      rw [show (A ++ '.' :: [x1, x2, x3]).reverse =
        x3 :: (x2 :: x1 :: '.' :: A.reverse) from by simp]
      rw [show (['.', 'h', 't', 'm', 'l'] : List Char).reverse = ['l', 'm', 't', 'h', '.'] from by
        decide]
      simp [dropLeadCI, h3]
    have hs : dropTailCI (['.', 'h', 't', 'm'] : List Char) (A ++ '.' :: [x1, x2, x3]) =
        some A := by
      simp only [dropTailCI]
      rw [show (A ++ '.' :: [x1, x2, x3]).reverse =
        [x3, x2, x1, '.'] ++ A.reverse from by simp]
      rw [show (['.', 'h', 't', 'm'] : List Char).reverse = ['m', 't', 'h', '.'] from by decide]
      rw [show (['m', 't', 'h', '.'] : List Char) =
        ([x3, x2, x1, '.'] : List Char).map jsLower from by simp [h1, h2, h3, hdot]]
      rw [dropLeadCI_append]
      simp
    simp [stripGenericExt, genericExts, List.findSome?_cons, hf, hs]
  · obtain ⟨x1, x2, x3, rfl, h1, h2, h3⟩ := map_jsLower_three h
    have hf1 : dropTailCI (['.', 'h', 't', 'm', 'l'] : List Char) (A ++ '.' :: [x1, x2, x3]) =
        none := by
      simp only [dropTailCI]
      rw [show (A ++ '.' :: [x1, x2, x3]).reverse =
        x3 :: (x2 :: x1 :: '.' :: A.reverse) from by simp]
      rw [show (['.', 'h', 't', 'm', 'l'] : List Char).reverse = ['l', 'm', 't', 'h', '.'] from by
        decide]
      simp [dropLeadCI, h3]
    have hf2 : dropTailCI (['.', 'h', 't', 'm'] : List Char) (A ++ '.' :: [x1, x2, x3]) =
        none := by
      simp only [dropTailCI]
      rw [show (A ++ '.' :: [x1, x2, x3]).reverse =
        x3 :: (x2 :: x1 :: '.' :: A.reverse) from by simp]
      rw [show (['.', 'h', 't', 'm'] : List Char).reverse = ['m', 't', 'h', '.'] from by decide]
      simp [dropLeadCI, h3]
    have hs : dropTailCI (['.', 'p', 'h', 'p'] : List Char) (A ++ '.' :: [x1, x2, x3]) =
        some A := by
      simp only [dropTailCI]
      rw [show (A ++ '.' :: [x1, x2, x3]).reverse =
        [x3, x2, x1, '.'] ++ A.reverse from by simp]
      rw [show (['.', 'p', 'h', 'p'] : List Char).reverse = ['p', 'h', 'p', '.'] from by decide]
      rw [show (['p', 'h', 'p', '.'] : List Char) =
        ([x3, x2, x1, '.'] : List Char).map jsLower from by simp [h1, h2, h3, hdot]]
      rw [dropLeadCI_append]
      simp
    simp [stripGenericExt, genericExts, List.findSome?_cons, hf1, hf2, hs]
  · obtain ⟨x1, x2, rfl, h1, h2⟩ := map_jsLower_two h
    have hf1 : dropTailCI (['.', 'h', 't', 'm', 'l'] : List Char) (A ++ '.' :: [x1, x2]) = none := by
      simp only [dropTailCI]
      rw [show (A ++ '.' :: [x1, x2]).reverse =
        x2 :: (x1 :: '.' :: A.reverse) from by simp]
      rw [show (['.', 'h', 't', 'm', 'l'] : List Char).reverse = ['l', 'm', 't', 'h', '.'] from by
        decide]
      simp [dropLeadCI, h2]
    have hf2 : dropTailCI (['.', 'h', 't', 'm'] : List Char) (A ++ '.' :: [x1, x2]) = none := by
      simp only [dropTailCI]
      rw [show (A ++ '.' :: [x1, x2]).reverse =
        x2 :: (x1 :: '.' :: A.reverse) from by simp]
      rw [show (['.', 'h', 't', 'm'] : List Char).reverse = ['m', 't', 'h', '.'] from by decide]
      simp [dropLeadCI, h2]
    have hf3 : dropTailCI (['.', 'p', 'h', 'p'] : List Char) (A ++ '.' :: [x1, x2]) = none := by
      simp only [dropTailCI]
      rw [show (A ++ '.' :: [x1, x2]).reverse =
        x2 :: (x1 :: '.' :: A.reverse) from by simp]
      rw [show (['.', 'p', 'h', 'p'] : List Char).reverse = ['p', 'h', 'p', '.'] from by decide]
      simp [dropLeadCI, h2]
    have hs : dropTailCI (['.', 'm', 'd'] : List Char) (A ++ '.' :: [x1, x2]) = some A := by
      simp only [dropTailCI]
      rw [show (A ++ '.' :: [x1, x2]).reverse =
        [x2, x1, '.'] ++ A.reverse from by simp]
      rw [show (['.', 'm', 'd'] : List Char).reverse = ['d', 'm', '.'] from by decide]
      rw [show (['d', 'm', '.'] : List Char) =
        ([x2, x1, '.'] : List Char).map jsLower from by simp [h1, h2, hdot]]
      rw [dropLeadCI_append]
      simp
    simp [stripGenericExt, genericExts, List.findSome?_cons, hf1, hf2, hf3, hs]

theorem genericMatch_eq (s A : List Char) (h : stripGenericExt s = some A) :
    genericMatch s =
      match firstSlashIdx ((A.reverse.takeWhile isGenClass).reverse) with
      | some p =>
        if p + 1 < ((A.reverse.takeWhile isGenClass).reverse).length then
          some (((A.reverse.takeWhile isGenClass).reverse).drop (p + 1))
        else none
      | none => none := by
  simp only [genericMatch, h]
  rfl

theorem genericMatch_suff (pre body ext : List Char)
    (hb : body ≠ []) (hclass : ∀ c ∈ body, isGenClass c = true)
    (hext : ext.map jsLower ∈ genericExts)
    (hpre : pre = [] ∨ ∃ p' c, pre = p' ++ [c] ∧ isGenClass c = false) :
    genericMatch (pre ++ '/' :: (body ++ '.' :: ext)) = some body := by
  have hassoc : pre ++ '/' :: (body ++ '.' :: ext) =
      (pre ++ '/' :: body) ++ '.' :: ext := by simp
  rw [hassoc]
  have hstrip := stripGenericExt_append (pre ++ '/' :: body) ext hext
  have hsl : isGenClass '/' = true := by decide
  have htw : ((pre ++ '/' :: body).reverse.takeWhile isGenClass) =
      body.reverse ++ ['/'] := by
    rw [show (pre ++ '/' :: body).reverse = body.reverse ++ '/' :: pre.reverse
      from by simp]
    rw [takeWhile_append_of_all isGenClass body.reverse ('/' :: pre.reverse)
      fun a ha => hclass a (List.mem_reverse.mp ha)]
    rcases hpre with h | ⟨p', c, rfl, hc⟩
    · subst h
      simp [List.takeWhile_cons, hsl]
    · simp [List.takeWhile_cons, hsl, List.reverse_append, hc]
  have ht : ((pre ++ '/' :: body).reverse.takeWhile isGenClass).reverse =
      '/' :: body := by
    rw [htw]; simp
  have hfs : firstSlashIdx ('/' :: body) = some 0 := by simp [firstSlashIdx]
  have hlen : 0 + 1 < ('/' :: body).length := by
    have := List.length_pos.mpr hb
    simp only [List.length_cons]
    omega
  rw [genericMatch_eq ((pre ++ '/' :: body) ++ '.' :: ext) (pre ++ '/' :: body)
    hstrip]
  rw [ht, hfs]
  show (if 0 + 1 < ('/' :: body).length then some (('/' :: body).drop (0 + 1))
    else none) = some body
  rw [if_pos hlen]
  rfl

/-- C7, refuted as stated: the generic regex carries the `i` flag, so
its character class matches letters of either case and a captured
portion containing an uppercase letter still succeeds:
`resolveGeneric('/About.html')` yields `/About` with low confidence
rather than an absent result. -/
theorem c7_generic_counterexample :
    resolveGeneric "/About.html".toList =
      some ⟨"/About".toList, Confidence.low, "Generic path extraction"⟩ ∧
    resolveGeneric "/About.html".toList ≠ none := by
  exact ⟨by decide, by decide⟩

/-- C7 amended: the generic fallback matches a path ending in `.html`,
`.htm`, `.php` or `.md` where the extension and the captured portion
are both matched case-insensitively: the captured portion may contain
letters of either case, digits, hyphen, underscore and slash, and is
returned verbatim behind a leading slash with confidence low.
Sufficiency holds for any path whose trailing segment has that shape
(with the preceding character, if any, outside the class), and every
successful result has low confidence and a nonempty capture drawn
entirely from the case-insensitive class. -/
theorem c7_generic_amended :
    (∀ pre body ext : List Char, body ≠ [] →
      (∀ c ∈ body, isGenClass c = true) →
      ext.map jsLower ∈ genericExts →
      (pre = [] ∨ ∃ p' c, pre = p' ++ [c] ∧ isGenClass c = false) →
      resolveGeneric (pre ++ '/' :: (body ++ '.' :: ext)) =
        some ⟨'/' :: body, Confidence.low, "Generic path extraction"⟩) ∧
    (∀ (s : List Char) (r : ResolvedURL), resolveGeneric s = some r →
      r.confidence = Confidence.low ∧
      ∃ cap, r.urlPath = '/' :: cap ∧ cap ≠ [] ∧
        ∀ c ∈ cap, isGenClass c = true) := by
  constructor
  · intro pre body ext hb hcl hext hpre
    simp [resolveGeneric, genericMatch_suff pre body ext hb hcl hext hpre]
  · intro s r hr
    simp only [resolveGeneric, Option.map_eq_some'] at hr
    obtain ⟨cap, hgm, rfl⟩ := hr
    simp only [genericMatch, Option.bind_eq_some] at hgm
    obtain ⟨body, hstrip, hrest⟩ := hgm
    cases hfi : firstSlashIdx ((body.reverse.takeWhile isGenClass).reverse) with
    | none =>
      rw [hfi] at hrest
      exact absurd hrest (by simp)
    | some p =>
      rw [hfi] at hrest
      have hrest' :
          (if p + 1 < ((body.reverse.takeWhile isGenClass).reverse).length then
            some (((body.reverse.takeWhile isGenClass).reverse).drop (p + 1))
          else none) = some cap := hrest
      by_cases hp : p + 1 < ((body.reverse.takeWhile isGenClass).reverse).length
      · rw [if_pos hp] at hrest'
        have hcap := Option.some.inj hrest'
        refine ⟨rfl, cap, rfl, ?_, ?_⟩
        · intro hnil
          have hlen : cap.length =
              ((body.reverse.takeWhile isGenClass).reverse).length - (p + 1) := by
            rw [← hcap, List.length_drop]
          rw [hnil] at hlen
          simp only [List.length_nil] at hlen
          omega
        · intro c hc
          rw [← hcap] at hc
          have hmem : c ∈ (body.reverse.takeWhile isGenClass).reverse :=
            List.drop_subset _ _ hc
          exact List.mem_takeWhile_imp (List.mem_reverse.mp hmem)
      · rw [if_neg hp] at hrest'
        exact absurd hrest' (by simp)

theorem c7_generic_amended_inst :
    resolveGeneric ([] ++ '/' :: ("Blog_1".toList ++ '.' :: "HTML".toList)) =
      some ⟨'/' :: "Blog_1".toList, Confidence.low, "Generic path extraction"⟩ ∧
    ∃ cap, ('/' :: "Blog_1".toList : List Char) = '/' :: cap ∧ cap ≠ [] ∧
      ∀ c ∈ cap, isGenClass c = true := by
  have hA := c7_generic_amended.1 [] "Blog_1".toList "HTML".toList (by decide)
    (by decide) (by decide) (Or.inl rfl)
  have hB := c7_generic_amended.2
    ([] ++ '/' :: ("Blog_1".toList ++ '.' :: "HTML".toList))
    ⟨'/' :: "Blog_1".toList, Confidence.low, "Generic path extraction"⟩ hA
  exact ⟨hA, hB.2⟩

theorem c6_detect_amended_inst :
    detectFramework "/site/src/pages/blog/[slug].astro".toList = "nextjs" ∧
    resolve "/site/src/pages/blog/[slug].astro".toList none =
      resolveNextJS "/site/src/pages/blog/[slug].astro".toList := by
  exact c6_detect_amended.1 "/site/src/pages/blog/[slug].astro".toList (by decide)
